import Mathlib

/-!
Verification of the stratified randomization engine in
`src/local/redcap_rand.py`.

The Python program derives, from a historical allocation table, a
conditional probability distribution over treatments for every distinct
combination of stratification criteria, then assigns each pending subject
a treatment by weighted random sampling from its stratum's distribution.

Modelling conventions for the shallow embedding:
* Python dicts are association lists (`Dict`) with Python's semantics:
  assignment overwrites the value of an existing key in place and appends
  a fresh key at the end; lookup finds the unique binding.
* Pandas dataframes are lists of rows; cell values are `String` labels
  before encoding reconciliation and `Int` codes afterwards, with `-1` as
  the unknown sentinel (`''` values become `-1` at line 266/269 of the
  source).
* Python floats are modelled as exact rationals; `round(x, 3)` is
  round-half-to-even of `1000 * x`, divided by `1000`.
* The global `random` source is an explicit stream `u : Nat -> Rat` of
  unit-interval draws, consumed one draw per `random.choices` call.
* The historical allocation table is modelled with one column per
  stratification criterion plus the treatment column (the spec's table
  model); `main` groups by all columns, which over these columns is
  grouping by (stratum key, treatment).
-/

/-- Association-list model of a Python dict. The list order is the dict's
insertion order. -/
abbrev Dict (α β : Type) := List (α × β)

/-- Python dict lookup: `d.get(k)` / `d[k]`. -/
def dget {α β : Type} [DecidableEq α] (d : Dict α β) (k : α) : Option β :=
  (d.find? (fun p => p.1 = k)).map (·.2)

/-- Python dict assignment `d[k] = v`: overwrite in place if the key is
present, append at the end otherwise. -/
def dinsert {α β : Type} [DecidableEq α] (d : Dict α β) (k : α) (v : β) : Dict α β :=
  if d.any (fun p => p.1 = k) then
    d.map (fun p => if p.1 = k then (k, v) else p)
  else
    d ++ [(k, v)]

/-- Two-level lookup in a dict of dicts. -/
def dget2 {α β γ : Type} [DecidableEq α] [DecidableEq β]
    (d : Dict α (Dict β γ)) (k : α) (t : β) : Option γ :=
  (dget d k).bind (fun vd => dget vd t)

theorem dget_nil {α β : Type} [DecidableEq α] (k : α) : dget ([] : Dict α β) k = none := rfl

theorem dget_cons {α β : Type} [DecidableEq α] (p : α × β) (d : Dict α β) (k : α) :
    dget (p :: d) k = if p.1 = k then some p.2 else dget d k := by
  by_cases h : p.1 = k <;> simp [dget, List.find?_cons, h]

theorem dget_map_update_self {α β : Type} [DecidableEq α] (d : Dict α β) (k : α) (v : β)
    (hd : d.any (fun p => p.1 = k)) :
    dget (d.map (fun p => if p.1 = k then (k, v) else p)) k = some v := by
  induction d with
  | nil => simp at hd
  | cons p ds ih =>
    by_cases hp : p.1 = k
    · simp [dget_cons, hp]
    · have hds : ds.any (fun q => q.1 = k) := by simpa [List.any_cons, hp] using hd
      simp [dget_cons, hp, ih hds]

theorem dget_map_update_ne {α β : Type} [DecidableEq α] (d : Dict α β) (k k' : α) (v : β)
    (h : k' ≠ k) :
    dget (d.map (fun p => if p.1 = k then (k, v) else p)) k' = dget d k' := by
  induction d with
  | nil => rfl
  | cons p ds ih =>
    by_cases hp : p.1 = k
    · simp [dget_cons, hp, Ne.symm h, ih]
    · by_cases hpk : p.1 = k'
      · simp [dget_cons, hp, hpk, h]
      · simp [dget_cons, hp, hpk, ih]

theorem dget_append_single_self {α β : Type} [DecidableEq α] (d : Dict α β) (k : α) (v : β)
    (hd : ¬ d.any (fun p => p.1 = k)) :
    dget (d ++ [(k, v)]) k = some v := by
  have hnone : d.find? (fun p => p.1 = k) = none := by
    rw [List.find?_eq_none]
    intro p hp
    simp only [List.any_eq_true, not_exists, not_and] at hd
    simpa using hd p hp
  simp [dget, List.find?_append, hnone, List.find?_cons]

theorem dget_append_single_ne {α β : Type} [DecidableEq α] (d : Dict α β) (k k' : α) (v : β)
    (h : k' ≠ k) :
    dget (d ++ [(k, v)]) k' = dget d k' := by
  simp only [dget, List.find?_append]
  cases hf : d.find? (fun p => p.1 = k') with
  | some q => simp
  | none => simp [List.find?_cons, Ne.symm h]

theorem dget_dinsert_self {α β : Type} [DecidableEq α] (d : Dict α β) (k : α) (v : β) :
    dget (dinsert d k v) k = some v := by
  unfold dinsert
  by_cases hd : d.any (fun p => p.1 = k)
  · rw [if_pos hd]; exact dget_map_update_self d k v hd
  · rw [if_neg hd]; exact dget_append_single_self d k v hd

theorem dget_dinsert_ne {α β : Type} [DecidableEq α] (d : Dict α β) (k k' : α) (v : β)
    (h : k' ≠ k) : dget (dinsert d k v) k' = dget d k' := by
  unfold dinsert
  by_cases hd : d.any (fun p => p.1 = k)
  · rw [if_pos hd]; exact dget_map_update_ne d k k' v h
  · rw [if_neg hd]; exact dget_append_single_ne d k k' v h

/-- Round half to even: the rounding Python's builtin `round` applies. -/
def roundHalfEven (q : ℚ) : ℤ :=
  if Int.fract q < 1/2 then ⌊q⌋
  else if 1/2 < Int.fract q then ⌊q⌋ + 1
  else if ⌊q⌋ % 2 = 0 then ⌊q⌋ else ⌊q⌋ + 1

/-- Python `round(x, 3)`, on exact rationals. -/
def round3 (q : ℚ) : ℚ := (roundHalfEven (1000 * q) : ℚ) / 1000

theorem abs_roundHalfEven_sub_le (q : ℚ) : |(roundHalfEven q : ℚ) - q| ≤ 1/2 := by
  have hfr : Int.fract q = q - ⌊q⌋ := (Int.self_sub_floor q).symm
  have h0 : (0 : ℚ) ≤ Int.fract q := Int.fract_nonneg q
  have h1 : Int.fract q < 1 := Int.fract_lt_one q
  unfold roundHalfEven
  by_cases hlt : Int.fract q < 1/2
  · rw [if_pos hlt]
    rw [abs_le]
    constructor <;> rw [hfr] at hlt h0 <;> push_cast <;> linarith
  · rw [if_neg hlt]
    by_cases hgt : 1/2 < Int.fract q
    · rw [if_pos hgt]
      rw [abs_le]
      constructor <;> rw [hfr] at hlt h1 <;> push_cast <;> linarith
    · rw [if_neg hgt]
      have heq : Int.fract q = 1/2 := le_antisymm (not_lt.mp hgt) (not_lt.mp hlt)
      rw [hfr] at heq
      by_cases he : ⌊q⌋ % 2 = 0
      · rw [if_pos he, abs_le]
        constructor <;> push_cast <;> linarith
      · rw [if_neg he, abs_le]
        constructor <;> push_cast <;> linarith

theorem abs_round3_sub_le (q : ℚ) : |round3 q - q| ≤ 1/2000 := by
  have h := abs_roundHalfEven_sub_le (1000 * q)
  have : round3 q - q = ((roundHalfEven (1000 * q) : ℚ) - 1000 * q) / 1000 := by
    unfold round3; ring
  rw [this, abs_div]
  have h1000 : |(1000 : ℚ)| = 1000 := by norm_num
  rw [h1000]
  linarith [h]

/-- A stratum key: the tuple of criteria-column values, in `less_criteria`
order. -/
abbrev Key (α : Type) := List α

/-- One row of the historical allocation table: the criteria values plus
the assigned treatment label (source: `pull_allocation_table` output after
the `main` normalization). -/
abbrev AllocRow := Key String × String

/-- Multiplicity of a row in a table. -/
def rowCount {β : Type} [DecidableEq β] (rows : List β) (r : β) : Nat :=
  rows.countP (fun x => x = r)

/-- `main` line 244: group the allocation table by all of its columns and
take group sizes — one entry per distinct row, counting its occurrences. -/
def groupSizes {β : Type} [DecidableEq β] (rows : List β) : List (β × Nat) :=
  rows.dedup.map (fun r => (r, rowCount rows r))

/-- Total number of historical rows carrying stratum key `k`, computed as
the source does: summing the grouped sizes of every grouped row whose
criteria columns equal `k`. -/
def stratTotal (g : List (AllocRow × Nat)) (k : Key String) : Nat :=
  ((g.filter (fun r => r.1.1 = k)).map (fun r => r.2)).sum

/-- `calculate_probabilities` line 127: re-group the grouped frequencies by
the criteria columns alone (`less_criteria`), summing the sizes. -/
def freqSizes (g : List (AllocRow × Nat)) : List (Key String × Nat) :=
  (g.map (fun r => r.1.1)).dedup.map (fun k => (k, stratTotal g k))

/-- One row of `mapped_df`: criteria values, the `randomized_field` column
(set to the treatment column by line 145 of the source) and the computed
probability. The value type is `String` (labels) before
`convert_to_values` and `Int` (codes) after it. -/
structure PRow (α : Type) where
  crit : Key α
  rand : α
  prob : ℚ
deriving DecidableEq, Repr

/-- The inner loop of `calculate_probabilities` for one `freq_df` row
`ft`: every grouped row agreeing with `ft` on all criteria columns is
emitted with probability `round(size / total, 3)`. -/
def probRowsFor (g : List (AllocRow × Nat)) (ft : Key String × Nat) : List (PRow String) :=
  (g.filter (fun r => r.1.1 = ft.1)).map
    (fun r => ⟨r.1.1, r.1.2, round3 ((r.2 : ℚ) / (ft.2 : ℚ))⟩)

/-- `calculate_probabilities` (source lines 117-146): for every criteria
combination (outer loop over `freq_df`) and every grouped row matching it
on all criteria columns (inner loop over `grouped_df`), emit the grouped
row with `probability = round(size / total, 3)`. Line 145 then copies the
treatment column into the `randomized_field` column, recorded here as the
`rand` field of each emitted row. -/
def calculate_probabilities (g : List (AllocRow × Nat)) : List (PRow String) :=
  (freqSizes g).flatMap (probRowsFor g)

/-- `create_probability_dict` (source lines 162-183): fold the rows of
`mapped_df` into a dict keyed by the criteria tuple whose values are inner
dicts keyed by the `randomized_field` value, holding the probability.
A later row with the same outer and inner key overwrites the earlier
probability. -/
def cpdStep {α : Type} [DecidableEq α] (d : Dict (Key α) (Dict α ℚ)) (r : PRow α) :
    Dict (Key α) (Dict α ℚ) :=
  dinsert d r.crit (dinsert ((dget d r.crit).getD []) r.rand r.prob)

def create_probability_dict {α : Type} [DecidableEq α] (l : List (PRow α)) :
    Dict (Key α) (Dict α ℚ) :=
  l.foldl cpdStep []

/-- The Probability Index built from a historical allocation table, before
encoding reconciliation: group, compute probabilities, build the dict. -/
def probIndex (rows : List AllocRow) : Dict (Key String) (Dict String ℚ) :=
  create_probability_dict (calculate_probabilities (groupSizes rows))

unseal Rat.mul Rat.add Rat.sub Rat.inv

example : round3 (15 / 20 : ℚ) = 3/4 := by decide
example : round3 (1 / 6 : ℚ) = 167/1000 := by decide
example : probIndex (List.replicate 15 (["A"], "t1") ++ List.replicate 5 (["A"], "t2")) =
    [(["A"], [("t1", 3/4), ("t2", 1/4)])] := by decide

/-- The row predicate matched by a two-level lookup: criteria tuple `k`,
`randomized_field` value `t`. -/
def rowMatch {α : Type} [DecidableEq α] (k : Key α) (t : α) (r : PRow α) : Bool :=
  decide (r.crit = k) && decide (r.rand = t)

theorem rowMatch_iff {α : Type} [DecidableEq α] (k : Key α) (t : α) (r : PRow α) :
    rowMatch k t r = true ↔ (r.crit = k ∧ r.rand = t) := by
  simp [rowMatch]

theorem dget2_cpdStep {α : Type} [DecidableEq α] (d : Dict (Key α) (Dict α ℚ)) (r : PRow α)
    (k : Key α) (t : α) :
    dget2 (cpdStep d r) k t =
      if k = r.crit ∧ t = r.rand then some r.prob else dget2 d k t := by
  by_cases hk : k = r.crit
  · subst hk
    by_cases ht : t = r.rand
    · subst ht
      rw [if_pos ⟨rfl, rfl⟩]
      unfold dget2 cpdStep
      rw [dget_dinsert_self]
      simp [dget_dinsert_self]
    · rw [if_neg (fun hc => ht hc.2)]
      unfold dget2 cpdStep
      rw [dget_dinsert_self]
      simp only [Option.some_bind]
      rw [dget_dinsert_ne _ _ _ _ ht]
      cases hd : dget d r.crit with
      | some vd => simp [hd]
      | none => simp [hd, dget_nil]
  · rw [if_neg (fun hc => hk hc.1)]
    unfold dget2 cpdStep
    rw [dget_dinsert_ne _ _ _ _ hk]

theorem cpd_aux_find {α : Type} [DecidableEq α] (l : List (PRow α)) :
    ∀ (d : Dict (Key α) (Dict α ℚ)) (k : Key α) (t : α),
    dget2 (l.foldl cpdStep d) k t =
      ((l.reverse.find? (rowMatch k t)).map PRow.prob).or (dget2 d k t) := by
  induction l with
  | nil => intro d k t; simp
  | cons r l ih =>
    intro d k t
    rw [List.foldl_cons, ih, List.reverse_cons, List.find?_append]
    cases hf : l.reverse.find? (rowMatch k t) with
    | some r0 => simp
    | none =>
      simp only [Option.none_or]
      by_cases hc : k = r.crit ∧ t = r.rand
      · have hm : rowMatch k t r = true := (rowMatch_iff k t r).mpr ⟨hc.1.symm, hc.2.symm⟩
        rw [dget2_cpdStep, if_pos hc]
        simp [List.find?_cons, hm]
      · have hm : rowMatch k t r = false := by
          rw [Bool.eq_false_iff]
          intro hmt
          rcases (rowMatch_iff k t r).mp hmt with ⟨h1, h2⟩
          exact hc ⟨h1.symm, h2.symm⟩
        rw [dget2_cpdStep, if_neg hc]
        simp [List.find?_cons, hm]

/-- Lookup in the probability dict: the probability of the LAST row of
`mapped_df` carrying the given criteria tuple and `randomized_field`
value — later rows overwrite earlier ones. -/
theorem cpd_find {α : Type} [DecidableEq α] (l : List (PRow α)) (k : Key α) (t : α) :
    dget2 (create_probability_dict l) k t =
      (l.reverse.find? (rowMatch k t)).map PRow.prob := by
  rw [create_probability_dict, cpd_aux_find l [] k t]
  simp [dget2, dget_nil]

theorem sum_map_add_split {α : Type} (L : List α) (f g : α → ℕ) :
    (L.map (fun x => f x + g x)).sum = (L.map f).sum + (L.map g).sum := by
  induction L with
  | nil => simp
  | cons b t ih => simp [ih]; omega

theorem countP_self_cons {α : Type} [DecidableEq α] (b : α) (t : List α) (a : α) :
    rowCount (b :: t) a = rowCount t a + if a = b then 1 else 0 := by
  unfold rowCount
  rw [List.countP_cons]
  by_cases hba : b = a
  · simp [hba]
  · simp [hba, Ne.symm hba]

theorem countP_self_eq_zero {α : Type} [DecidableEq α] (L : List α) (a : α) (h : a ∉ L) :
    rowCount L a = 0 := by
  unfold rowCount
  rw [List.countP_eq_zero]
  intro x hx
  simp only [decide_eq_true_eq]
  intro hxa
  exact h (hxa ▸ hx)

theorem countP_self_eq_one {α : Type} [DecidableEq α] (L : List α) (a : α)
    (hnd : L.Nodup) (h : a ∈ L) : rowCount L a = 1 := by
  induction L with
  | nil => simp at h
  | cons b t ih =>
    rcases List.nodup_cons.mp hnd with ⟨hbt, hndt⟩
    rw [countP_self_cons]
    rcases List.mem_cons.mp h with hab | hat
    · rw [if_pos hab, countP_self_eq_zero t a (hab ▸ hbt)]
    · have hne : ¬ (a = b) := fun hc => hbt (hc ▸ hat)
      rw [if_neg hne, ih hndt hat]

theorem sum_map_indicator {α : Type} [DecidableEq α] (L : List α) (a : α) :
    (L.map (fun x => if a = x then 1 else 0)).sum = rowCount L a := by
  induction L with
  | nil => simp [rowCount]
  | cons b t ih =>
    rw [List.map_cons, List.sum_cons, ih, countP_self_cons]
    by_cases hab : a = b
    · simp [hab, Nat.add_comm]
    · simp [hab]

/-- Summing the multiplicities of the distinct elements selected by `p`
recovers the number of elements of `l` satisfying `p`: the grouped-by-all
sizes, re-summed per stratum, count the underlying table rows. -/
theorem sum_count_dedup_filter {α : Type} [DecidableEq α] (l : List α) (p : α → Bool) :
    ((l.dedup.filter p).map (fun a => rowCount l a)).sum = l.countP p := by
  induction l with
  | nil => simp
  | cons a t ih =>
    by_cases ha : a ∈ t
    · rw [List.dedup_cons_of_mem ha]
      have hmap : (t.dedup.filter p).map (fun r => rowCount (a :: t) r)
          = (t.dedup.filter p).map (fun r => rowCount t r + if a = r then 1 else 0) := by
        apply List.map_congr_left
        intro r _
        rw [countP_self_cons]
        by_cases har : a = r
        · simp [har]
        · simp [har, Ne.symm har]
      rw [hmap, sum_map_add_split, ih, sum_map_indicator, List.countP_cons]
      have hcount : rowCount (t.dedup.filter p) a = if p a = true then 1 else 0 := by
        by_cases hpa : p a = true
        · rw [if_pos hpa]
          exact countP_self_eq_one _ _ (List.Nodup.filter p (List.nodup_dedup t))
            (List.mem_filter.mpr ⟨List.mem_dedup.mpr ha, hpa⟩)
        · rw [if_neg hpa]
          apply countP_self_eq_zero
          intro hmem
          exact hpa (List.mem_filter.mp hmem).2
      rw [hcount]
    · rw [List.dedup_cons_of_not_mem ha, List.filter_cons]
      have htail : (t.dedup.filter p).map (fun r => rowCount (a :: t) r)
          = (t.dedup.filter p).map (fun r => rowCount t r) := by
        apply List.map_congr_left
        intro r hr
        have hrt : r ∈ t := List.mem_dedup.mp (List.mem_filter.mp hr).1
        have hra : ¬ (a = r) := fun hc => ha (hc ▸ hrt)
        rw [countP_self_cons, if_neg (fun hc => hra hc.symm)]
        omega
      by_cases hpa : p a = true
      · rw [if_pos hpa, List.map_cons, List.sum_cons, htail, ih, List.countP_cons, if_pos hpa]
        rw [countP_self_cons, if_pos rfl, countP_self_eq_zero t a ha]
        omega
      · rw [if_neg hpa, htail, ih, List.countP_cons, if_neg hpa]
        omega

theorem probRowsFor_crit (g : List (AllocRow × Nat)) (ft : Key String × Nat) :
    ∀ row ∈ probRowsFor g ft, row.crit = ft.1 := by
  intro row hrow
  rcases List.mem_map.mp hrow with ⟨r, hr, hmk⟩
  have hcrit : r.1.1 = ft.1 := by
    have := (List.mem_filter.mp hr).2
    simpa using this
  rw [← hmk]
  exact hcrit

theorem probRowsFor_mem_char (g : List (AllocRow × Nat)) (ft : Key String × Nat)
    (row : PRow String) (hrow : row ∈ probRowsFor g ft) :
    ∃ r ∈ g, r.1.1 = ft.1 ∧ row = ⟨r.1.1, r.1.2, round3 ((r.2 : ℚ) / (ft.2 : ℚ))⟩ := by
  rcases List.mem_map.mp hrow with ⟨r, hr, hmk⟩
  rcases List.mem_filter.mp hr with ⟨hg, hcrit⟩
  exact ⟨r, hg, by simpa using hcrit, hmk.symm⟩

theorem find?_eq_self_of_mem {α : Type} [DecidableEq α] (L : List α) (k : α) (h : k ∈ L) :
    L.find? (fun x => x = k) = some k := by
  cases hf : L.find? (fun x => x = k) with
  | none =>
    exfalso
    have := List.find?_eq_none.mp hf k h
    simp at this
  | some x =>
    have hx : x = k := by simpa using List.find?_some hf
    rw [hx]

/-- A grouped row for stratum `k` exists exactly when `k` occurs among the
grouped criteria keys; `freq_df` then has the entry `(k, stratTotal g k)`
and no other entry with key `k`. -/
theorem freqSizes_find (g : List (AllocRow × Nat)) (k : Key String)
    (h : k ∈ g.map (fun r => r.1.1)) :
    (freqSizes g).find? (fun ft => ft.1 = k) = some (k, stratTotal g k) := by
  unfold freqSizes
  rw [List.find?_map]
  have hpred : ((fun ft : Key String × Nat => decide (ft.1 = k)) ∘ (fun k' => (k', stratTotal g k')))
      = (fun x => decide (x = k)) := rfl
  rw [hpred, find?_eq_self_of_mem _ k (List.mem_dedup.mpr h)]
  rfl

/-- The total over a stratum key, computed by re-summing the grouped
sizes, is the number of rows of the underlying table carrying that key. -/
theorem count_filter_pair_sum (rows : List AllocRow) (k : Key String) :
    ∀ l : List AllocRow,
      (((l.map (fun r => (r, rowCount rows r))).filter (fun p => p.1.1 = k)).map
        (fun p => p.2)).sum
      = ((l.filter (fun r => r.1 = k)).map (fun r => rowCount rows r)).sum := by
  intro l
  induction l with
  | nil => simp
  | cons a t ih =>
    by_cases hak : a.1 = k
    · simp only [List.map_cons, List.filter_cons]
      simp [hak, ih]
    · simp only [List.map_cons, List.filter_cons]
      simp [hak, ih]

theorem stratTotal_groupSizes (rows : List AllocRow) (k : Key String) :
    stratTotal (groupSizes rows) k = rows.countP (fun r => r.1 = k) := by
  unfold stratTotal groupSizes
  rw [count_filter_pair_sum rows k rows.dedup]
  exact sum_count_dedup_filter rows (fun r => r.1 = k)

/-- Every row of `mapped_df` built from the grouped table that carries
criteria tuple `k` and treatment `t` holds the same probability: the count
of `(k, t)` among the table rows over the count of `k`. -/
theorem calc_match_prob (rows : List AllocRow) (k : Key String) (t : String)
    (row : PRow String) (hrow : row ∈ calculate_probabilities (groupSizes rows))
    (hmatch : rowMatch k t row = true) :
    row.prob = round3 ((rowCount rows (k, t) : ℚ) / (rows.countP (fun r => r.1 = k) : ℚ)) := by
  rcases (rowMatch_iff k t row).mp hmatch with ⟨hcrit, hrand⟩
  rcases List.mem_flatMap.mp hrow with ⟨ft, hft, hrowft⟩
  rcases probRowsFor_mem_char _ _ _ hrowft with ⟨r, hrg, hr1, hmk⟩
  obtain ⟨⟨a, b⟩, n⟩ := r
  subst hmk
  simp only at hcrit hrand hr1 ⊢
  subst hcrit
  subst hrand
  rcases List.mem_map.mp hrg with ⟨x, hx, hxr⟩
  have hx1 : x = (a, b) := congrArg Prod.fst hxr
  have hn : n = rowCount rows (a, b) := by
    have := congrArg Prod.snd hxr
    simp only at this
    rw [← this, hx1]
  rcases List.mem_map.mp hft with ⟨k0, hk0, hft0⟩
  have hk0k : k0 = a := by
    rw [← hft0] at hr1
    simpa using hr1.symm
  have hft2 : ft.2 = stratTotal (groupSizes rows) a := by
    rw [← hft0, ← hk0k]
  rw [hn, hft2, stratTotal_groupSizes]

/-- The `mapped_df` row for an observed (stratum key, treatment) pair is
present in the output of `calculate_probabilities`. -/
theorem calc_match_exists (rows : List AllocRow) (k : Key String) (t : String)
    (h : (k, t) ∈ rows) :
    ∃ row ∈ calculate_probabilities (groupSizes rows), rowMatch k t row = true := by
  have hded : (k, t) ∈ rows.dedup := List.mem_dedup.mpr h
  have hg : ((k, t), rowCount rows (k, t)) ∈ groupSizes rows := by
    unfold groupSizes
    exact List.mem_map.mpr ⟨(k, t), hded, rfl⟩
  have hkeys : k ∈ (groupSizes rows).map (fun r => r.1.1) :=
    List.mem_map.mpr ⟨((k, t), rowCount rows (k, t)), hg, rfl⟩
  have hft : (k, stratTotal (groupSizes rows) k) ∈ freqSizes (groupSizes rows) := by
    unfold freqSizes
    exact List.mem_map.mpr ⟨k, List.mem_dedup.mpr hkeys, rfl⟩
  refine ⟨⟨k, t, round3 ((rowCount rows (k, t) : ℚ) / (stratTotal (groupSizes rows) k : ℚ))⟩, ?_, ?_⟩
  · apply List.mem_flatMap.mpr
    refine ⟨(k, stratTotal (groupSizes rows) k), hft, ?_⟩
    unfold probRowsFor
    apply List.mem_map.mpr
    refine ⟨((k, t), rowCount rows (k, t)), ?_, rfl⟩
    apply List.mem_filter.mpr
    exact ⟨hg, by simp⟩
  · exact (rowMatch_iff _ _ _).mpr ⟨rfl, rfl⟩

/-- One `create_probability_dict` update restricted to the inner dict of a
fixed stratum key. -/
def innerStep {α : Type} [DecidableEq α] (vd : Dict α ℚ) (r : PRow α) : Dict α ℚ :=
  dinsert vd r.rand r.prob

def innerOpt {α : Type} [DecidableEq α] (v : Option (Dict α ℚ)) (l : List (PRow α)) :
    Option (Dict α ℚ) :=
  l.foldl (fun ov r => some (innerStep (ov.getD []) r)) v

theorem cpd_aux_get {α : Type} [DecidableEq α] (l : List (PRow α)) :
    ∀ (d : Dict (Key α) (Dict α ℚ)) (k : Key α),
    dget (l.foldl cpdStep d) k = innerOpt (dget d k) (l.filter (fun r => r.crit = k)) := by
  induction l with
  | nil => intro d k; rfl
  | cons r l ih =>
    intro d k
    rw [List.foldl_cons, ih, List.filter_cons]
    by_cases hrk : r.crit = k
    · rw [if_pos (by simpa using hrk)]
      have hstep : dget (cpdStep d r) k = some (innerStep ((dget d k).getD []) r) := by
        unfold cpdStep innerStep
        rw [hrk]
        exact dget_dinsert_self _ _ _
      rw [hstep]
      rfl
    · rw [if_neg (by simpa using hrk)]
      have hstep : dget (cpdStep d r) k = dget d k := by
        unfold cpdStep
        exact dget_dinsert_ne _ _ _ _ (fun hc => hrk hc.symm)
      rw [hstep]

theorem cpd_get {α : Type} [DecidableEq α] (l : List (PRow α)) (k : Key α) :
    dget (create_probability_dict l) k = innerOpt none (l.filter (fun r => r.crit = k)) := by
  rw [create_probability_dict, cpd_aux_get l [] k, dget_nil]

theorem innerOpt_some {α : Type} [DecidableEq α] (l : List (PRow α)) :
    ∀ v : Dict α ℚ, innerOpt (some v) l = some (l.foldl innerStep v) := by
  induction l with
  | nil => intro v; rfl
  | cons r l ih =>
    intro v
    show innerOpt (some (innerStep v r)) l = _
    rw [ih, List.foldl_cons]

theorem innerOpt_none_of_ne_nil {α : Type} [DecidableEq α] (l : List (PRow α)) (h : l ≠ []) :
    innerOpt none l = some (l.foldl innerStep []) := by
  cases l with
  | nil => exact absurd rfl h
  | cons r l =>
    show innerOpt (some (innerStep [] r)) l = _
    rw [innerOpt_some, List.foldl_cons]

theorem foldl_innerStep_nodup {α : Type} [DecidableEq α] (l : List (PRow α))
    (hnd : (l.map PRow.rand).Nodup) :
    ∀ acc : Dict α ℚ, (∀ r ∈ l, ¬ (acc.any (fun p => p.1 = r.rand) = true)) →
      l.foldl innerStep acc = acc ++ l.map (fun r => (r.rand, r.prob)) := by
  induction l with
  | nil => intro acc _; simp
  | cons r l ih =>
    intro acc hacc
    have hnd' : (r.rand :: l.map PRow.rand).Nodup := by
      rw [← List.map_cons]
      exact hnd
    rcases List.nodup_cons.mp hnd' with ⟨hrl, hndl⟩
    rw [List.foldl_cons]
    have hins : innerStep acc r = acc ++ [(r.rand, r.prob)] := by
      unfold innerStep dinsert
      rw [if_neg (hacc r (List.mem_cons_self r l))]
    have hcond : ∀ r' ∈ l, ¬ ((acc ++ [(r.rand, r.prob)]).any (fun p => p.1 = r'.rand) = true) := by
      intro r' hr'
      rw [List.any_append]
      simp only [Bool.or_eq_true, not_or]
      constructor
      · exact hacc r' (List.mem_cons_of_mem r hr')
      · simp only [List.any_cons, List.any_nil, Bool.or_false, decide_eq_true_eq]
        intro hc
        exact hrl (hc ▸ List.mem_map.mpr ⟨r', hr', rfl⟩)
    rw [hins, ih hndl _ hcond, List.map_cons, List.append_assoc, List.singleton_append]

theorem freqSizes_fst_nodup (g : List (AllocRow × Nat)) :
    ((freqSizes g).map Prod.fst).Nodup := by
  unfold freqSizes
  rw [List.map_map]
  have hcomp : (Prod.fst ∘ fun k => (k, stratTotal g k)) = id := rfl
  rw [hcomp, List.map_id]
  exact List.nodup_dedup _

/-- Restricting the rows of `mapped_df` to one stratum key selects exactly
the inner-loop output of the unique `freq_df` entry with that key. -/
theorem flatMap_probRows_filter (g : List (AllocRow × Nat)) (k : Key String) :
    ∀ fl : List (Key String × Nat), (fl.map Prod.fst).Nodup →
    (fl.flatMap (probRowsFor g)).filter (fun row => row.crit = k)
      = (match fl.find? (fun ft => ft.1 = k) with
         | some ft => probRowsFor g ft
         | none => []) := by
  intro fl
  induction fl with
  | nil => intro _; rfl
  | cons ft fl ih =>
    intro hnd
    have hnd' : (ft.1 :: fl.map Prod.fst).Nodup := by
      rw [← List.map_cons]
      exact hnd
    rcases List.nodup_cons.mp hnd' with ⟨hhead, htail⟩
    rw [List.flatMap_cons, List.filter_append, List.find?_cons]
    by_cases hftk : ft.1 = k
    · have hdec : decide (ft.1 = k) = true := decide_eq_true hftk
      rw [hdec]
      have hself : (probRowsFor g ft).filter (fun row => row.crit = k) = probRowsFor g ft := by
        apply List.filter_eq_self.mpr
        intro row hrow
        simpa using (probRowsFor_crit g ft row hrow).trans hftk
      have hnil : (fl.flatMap (probRowsFor g)).filter (fun row => row.crit = k) = [] := by
        rw [List.filter_eq_nil_iff]
        intro row hrow
        rcases List.mem_flatMap.mp hrow with ⟨ft', hft', hrowft'⟩
        have hcrit := probRowsFor_crit g ft' row hrowft'
        simp only [decide_eq_true_eq]
        intro hck
        apply hhead
        have hee : ft.1 = ft'.1 := by rw [hftk, ← hck, hcrit]
        rw [hee]
        exact List.mem_map.mpr ⟨ft', hft', rfl⟩
      rw [hself, hnil, List.append_nil]
    · have hdec : decide (ft.1 = k) = false := decide_eq_false hftk
      rw [hdec]
      have hhd : (probRowsFor g ft).filter (fun row => row.crit = k) = [] := by
        rw [List.filter_eq_nil_iff]
        intro row hrow
        have hcrit := probRowsFor_crit g ft row hrow
        simp only [decide_eq_true_eq]
        intro hck
        exact hftk (hcrit.symm.trans hck)
      rw [hhd, List.nil_append, ih htail]


theorem groupSizes_key_mem (rows : List AllocRow) (k : Key String) (t : String)
    (h : (k, t) ∈ rows) : k ∈ (groupSizes rows).map (fun r => r.1.1) := by
  have hg : ((k, t), rowCount rows (k, t)) ∈ groupSizes rows :=
    List.mem_map.mpr ⟨(k, t), List.mem_dedup.mpr h, rfl⟩
  exact List.mem_map.mpr ⟨((k, t), rowCount rows (k, t)), hg, rfl⟩

/-- For every (stratum key, treatment) pair observed in the allocation
table, the Probability Index holds the rounded conditional probability
count(key, treatment) / count(key). -/
theorem probIndex_observed (rows : List AllocRow) (k : Key String) (t : String)
    (h : (k, t) ∈ rows) :
    dget2 (probIndex rows) k t
      = some (round3 ((rowCount rows (k, t) : ℚ) / (rows.countP (fun r => r.1 = k) : ℚ))) := by
  rw [probIndex, cpd_find]
  rcases calc_match_exists rows k t h with ⟨row0, hmem, hm0⟩
  cases hf : (calculate_probabilities (groupSizes rows)).reverse.find? (rowMatch k t) with
  | none =>
    exfalso
    exact (List.find?_eq_none.mp hf row0 (List.mem_reverse.mpr hmem)) hm0
  | some r0 =>
    have hr0mem : r0 ∈ calculate_probabilities (groupSizes rows) :=
      List.mem_reverse.mp (List.mem_of_find?_eq_some hf)
    have hr0match := List.find?_some hf
    rw [Option.map_some', calc_match_prob rows k t r0 hr0mem hr0match]

theorem groupSizes_fst_nodup (rows : List AllocRow) :
    ((groupSizes rows).map Prod.fst).Nodup := by
  unfold groupSizes
  rw [List.map_map]
  have hcomp : (Prod.fst ∘ fun r : AllocRow => (r, rowCount rows r)) = id := rfl
  rw [hcomp, List.map_id]
  exact List.nodup_dedup _

theorem probRowsFor_rand_nodup (rows : List AllocRow) (k : Key String) (tot : Nat) :
    ((probRowsFor (groupSizes rows) (k, tot)).map PRow.rand).Nodup := by
  unfold probRowsFor
  rw [List.map_map]
  have hcomp : (PRow.rand ∘ fun r : AllocRow × Nat =>
      (⟨r.1.1, r.1.2, round3 ((r.2 : ℚ) / (((k, tot) : Key String × Nat).2 : ℚ))⟩ : PRow String))
      = fun r : AllocRow × Nat => r.1.2 := rfl
  rw [hcomp]
  apply List.Nodup.map_on
  · intro x hx y hy hxy
    have hxk : x.1.1 = k := by simpa using (List.mem_filter.mp hx).2
    have hyk : y.1.1 = k := by simpa using (List.mem_filter.mp hy).2
    have hfst : x.1 = y.1 := by
      cases hx1 : x.1 with
      | mk a b =>
        cases hy1 : y.1 with
        | mk c d =>
          rw [hx1] at hxk hxy
          rw [hy1] at hyk hxy
          simp only at hxk hyk hxy
          rw [hxk, hyk, hxy]
    exact List.inj_on_of_nodup_map (groupSizes_fst_nodup rows)
      (List.mem_of_mem_filter hx) (List.mem_of_mem_filter hy) hfst
  · exact List.Nodup.filter _ (List.Nodup.of_map _ (groupSizes_fst_nodup rows))

/-- The Probability Distribution stored for an observed stratum key is the
association list of (treatment, rounded probability) pairs produced by the
probability calculation for that key. -/
theorem probIndex_dist (rows : List AllocRow) (k : Key String) (t : String)
    (h : (k, t) ∈ rows) :
    dget (probIndex rows) k
      = some ((probRowsFor (groupSizes rows) (k, stratTotal (groupSizes rows) k)).map
          (fun r => (r.rand, r.prob))) := by
  rw [probIndex, cpd_get]
  have hfilter : (calculate_probabilities (groupSizes rows)).filter (fun r => r.crit = k)
      = probRowsFor (groupSizes rows) (k, stratTotal (groupSizes rows) k) := by
    rw [calculate_probabilities,
      flatMap_probRows_filter _ k _ (freqSizes_fst_nodup _),
      freqSizes_find _ k (groupSizes_key_mem rows k t h)]
  rw [hfilter]
  have hmem : (⟨k, t, round3 ((rowCount rows (k, t) : ℚ)
        / (stratTotal (groupSizes rows) k : ℚ))⟩ : PRow String)
      ∈ probRowsFor (groupSizes rows) (k, stratTotal (groupSizes rows) k) := by
    unfold probRowsFor
    apply List.mem_map.mpr
    refine ⟨((k, t), rowCount rows (k, t)), ?_, rfl⟩
    apply List.mem_filter.mpr
    refine ⟨List.mem_map.mpr ⟨(k, t), List.mem_dedup.mpr h, rfl⟩, by simp⟩
  have hne : probRowsFor (groupSizes rows) (k, stratTotal (groupSizes rows) k) ≠ [] := by
    intro hc
    rw [hc] at hmem
    exact absurd hmem (List.not_mem_nil _)
  rw [innerOpt_none_of_ne_nil _ hne,
    foldl_innerStep_nodup _ (probRowsFor_rand_nodup rows k _) [] (by simp),
    List.nil_append]

theorem sum_map_cast_div (T : ℚ) :
    ∀ xs : List ℕ, (xs.map (fun x : ℕ => (x : ℚ) / T)).sum = ((xs.sum : ℕ) : ℚ) / T := by
  intro xs
  induction xs with
  | nil => simp
  | cons x l ih =>
    rw [List.map_cons, List.sum_cons, ih, List.sum_cons]
    push_cast
    rw [add_div]

theorem sum_map_sub_split {α : Type} (l : List α) (f g : α → ℚ) :
    (l.map (fun x => f x - g x)).sum = (l.map f).sum - (l.map g).sum := by
  induction l with
  | nil => simp
  | cons x t ih =>
    simp only [List.map_cons, List.sum_cons, ih]
    ring

theorem abs_sum_le_length_mul {α : Type} (c : ℚ) (f : α → ℚ) :
    ∀ l : List α, (∀ x ∈ l, |f x| ≤ c) → |(l.map f).sum| ≤ (l.length : ℚ) * c := by
  intro l
  induction l with
  | nil => intro _; simp
  | cons x t ih =>
    intro hb
    rw [List.map_cons, List.sum_cons, List.length_cons]
    calc |f x + (t.map f).sum| ≤ |f x| + |(t.map f).sum| := abs_add _ _
      _ ≤ c + (t.length : ℚ) * c := by
          have h1 := hb x (List.mem_cons_self x t)
          have h2 := ih (fun y hy => hb y (List.mem_cons_of_mem x hy))
          linarith
      _ = ((t.length + 1 : ℕ) : ℚ) * c := by push_cast; ring

theorem mem_le_sum (xs : List ℕ) (x : ℕ) (h : x ∈ xs) : x ≤ xs.sum := by
  induction xs with
  | nil => simp at h
  | cons y t ih =>
    rw [List.sum_cons]
    rcases List.mem_cons.mp h with hxy | hxt
    · omega
    · have := ih hxt
      omega

/-- Summing the individually rounded conditional probabilities of a
stratum lands within (number of treatments) / 2000 of 1. -/
theorem sum_round3_div_bound (xs : List ℕ) (hpos : 0 < xs.sum) :
    |(xs.map (fun x : ℕ => round3 ((x : ℚ) / (xs.sum : ℚ)))).sum - 1| ≤ (xs.length : ℚ) / 2000 := by
  have hT : ((xs.sum : ℕ) : ℚ) ≠ 0 := by
    exact_mod_cast Nat.pos_iff_ne_zero.mp hpos
  have hexact : (xs.map (fun x : ℕ => (x : ℚ) / (xs.sum : ℚ))).sum = 1 := by
    rw [sum_map_cast_div]
    exact div_self hT
  have hsub : (xs.map (fun x : ℕ => round3 ((x : ℚ) / (xs.sum : ℚ)))).sum - 1
      = (xs.map (fun x : ℕ => round3 ((x : ℚ) / (xs.sum : ℚ)) - (x : ℚ) / (xs.sum : ℚ))).sum := by
    rw [sum_map_sub_split, hexact]
  rw [hsub]
  have hbound := abs_sum_le_length_mul (1/2000)
    (fun x : ℕ => round3 ((x : ℚ) / (xs.sum : ℚ)) - (x : ℚ) / (xs.sum : ℚ)) xs
    (fun x _ => abs_round3_sub_le _)
  calc |(xs.map (fun x : ℕ => round3 ((x : ℚ) / (xs.sum : ℚ)) - (x : ℚ) / (xs.sum : ℚ))).sum|
      ≤ (xs.length : ℚ) * (1/2000) := hbound
    _ = (xs.length : ℚ) / 2000 := by ring

/-- The Probability Distribution of every observed stratum key sums to
within (number of its entries) / 2000 of 1. -/
theorem probIndex_dist_sum (rows : List AllocRow) (k : Key String) (t : String)
    (h : (k, t) ∈ rows) :
    ∃ dist, dget (probIndex rows) k = some dist ∧
      |((dist.map (fun p => p.2)).sum) - 1| ≤ (dist.length : ℚ) / 2000 := by
  refine ⟨_, probIndex_dist rows k t h, ?_⟩
  set g := groupSizes rows with hg
  set xs : List ℕ := ((g.filter (fun r => r.1.1 = k)).map (fun r => r.2)) with hxs
  have htot : stratTotal g k = xs.sum := rfl
  have hsnd : (((probRowsFor g (k, stratTotal g k)).map (fun r => (r.rand, r.prob))).map
        (fun p => p.2))
      = xs.map (fun x : ℕ => round3 ((x : ℚ) / (stratTotal g k : ℚ))) := by
    unfold probRowsFor
    rw [List.map_map, List.map_map, hxs, List.map_map]
    rfl
  have hlen : ((probRowsFor g (k, stratTotal g k)).map
        (fun r : PRow String => (r.rand, r.prob))).length = xs.length := by
    unfold probRowsFor
    rw [List.length_map, List.length_map, hxs, List.length_map]
  have hpos : 0 < xs.sum := by
    have hmemx : rowCount rows (k, t) ∈ xs := by
      rw [hxs]
      apply List.mem_map.mpr
      refine ⟨((k, t), rowCount rows (k, t)), ?_, rfl⟩
      apply List.mem_filter.mpr
      refine ⟨List.mem_map.mpr ⟨(k, t), List.mem_dedup.mpr h, rfl⟩, by simp⟩
    have hcpos : 0 < rowCount rows (k, t) := by
      unfold rowCount
      rw [List.countP_pos_iff]
      exact ⟨(k, t), h, by simp⟩
    have := mem_le_sum xs _ hmemx
    omega
  rw [hsnd, hlen, htot]
  exact sum_round3_div_bound xs hpos

/-- The spec's join-correctness example table: stratum A has 20 rows (15
of treatment1, 5 of treatment2) and stratum B has 10 rows of treatment3. -/
def exampleTable : List AllocRow :=
  List.replicate 15 (["A"], "treatment1") ++ List.replicate 5 (["A"], "treatment2")
    ++ List.replicate 10 (["B"], "treatment3")

/-- Claim C1: for every stratum key and treatment observed in the
historical allocation table, the Probability Index entry for that pair is
the count of rows with that exact combination divided by the count of rows
with that stratum key, rounded to 3 decimal digits; in particular, the
index of the example table (A: 15 of treatment1, 5 of treatment2; B: 10 of
treatment3) is exactly A ↦ (treatment1 ↦ 0.75, treatment2 ↦ 0.25),
B ↦ (treatment3 ↦ 1.0). -/
theorem claim_C1 (rows : List AllocRow) (k : Key String) (t : String) (h : (k, t) ∈ rows) :
    dget2 (probIndex rows) k t
      = some (round3 ((rowCount rows (k, t) : ℚ) / (rows.countP (fun r => r.1 = k) : ℚ)))
    ∧ probIndex exampleTable
      = [(["A"], [("treatment1", 3/4), ("treatment2", 1/4)]), (["B"], [("treatment3", 1)])] :=
  ⟨probIndex_observed rows k t h, by decide⟩

theorem claim_C1_witness :
    ((["A"], "treatment1") ∈ exampleTable)
    ∧ (dget2 (probIndex exampleTable) ["A"] "treatment1"
        = some (round3 ((rowCount exampleTable (["A"], "treatment1") : ℚ)
            / (exampleTable.countP (fun r => r.1 = ["A"]) : ℚ)))
      ∧ probIndex exampleTable
        = [(["A"], [("treatment1", 3/4), ("treatment2", 1/4)]), (["B"], [("treatment3", 1)])]) :=
  ⟨by decide, claim_C1 exampleTable ["A"] "treatment1" (by decide)⟩

/-- A table with one stratum and six equally frequent treatments: each
conditional probability 1/6 rounds to 0.167, so the stored distribution
sums to 1.002, breaking the claimed 0.001 tolerance. -/
def tableSix : List AllocRow :=
  [(["S"], "t1"), (["S"], "t2"), (["S"], "t3"), (["S"], "t4"), (["S"], "t5"), (["S"], "t6")]

/-- Claim C2, counterexample: on `tableSix` the Probability Distribution
of stratum S sums to 1.002, which is NOT within 0.001 of 1.0. -/
theorem claim_C2_counterexample :
    dget (probIndex tableSix) ["S"]
      = some [("t1", 167/1000), ("t2", 167/1000), ("t3", 167/1000),
              ("t4", 167/1000), ("t5", 167/1000), ("t6", 167/1000)]
    ∧ (((dget (probIndex tableSix) ["S"]).getD []).map (fun p => p.2)).sum = 1002/1000
    ∧ ¬ (|(((dget (probIndex tableSix) ["S"]).getD []).map (fun p => p.2)).sum - 1|
          ≤ 1/1000) := by
  refine ⟨by decide, by decide, ?_⟩
  intro habs
  have hsum : (((dget (probIndex tableSix) ["S"]).getD []).map (fun p => p.2)).sum
      = 1002/1000 := by decide
  rw [hsum] at habs
  have : |(1002 : ℚ)/1000 - 1| = 1/500 := by norm_num [abs_of_nonneg]
  rw [this] at habs
  norm_num at habs

/-- Claim C2 (amended): for every stratum key present in the Probability
Index built from a historical allocation table, the sum of its
Probability Distribution's values is within n * 0.0005 of 1.0, where n is
the number of distribution entries (each entry is individually rounded to
3 digits, contributing up to 0.0005 of error); the original fixed 0.001
tolerance holds only when n ≤ 2. -/
theorem claim_C2 (rows : List AllocRow) (k : Key String) (t : String) (h : (k, t) ∈ rows) :
    ∃ dist, dget (probIndex rows) k = some dist ∧
      |((dist.map (fun p => p.2)).sum) - 1| ≤ (dist.length : ℚ) / 2000 :=
  probIndex_dist_sum rows k t h

theorem claim_C2_witness :
    ((["S"], "t1") ∈ tableSix)
    ∧ (∃ dist, dget (probIndex tableSix) ["S"] = some dist ∧
        |((dist.map (fun p => p.2)).sum) - 1| ≤ (dist.length : ℚ) / 2000) :=
  ⟨by decide, claim_C2 tableSix ["S"] "t1" (by decide)⟩

/-- Split a character list at every occurrence of `c`, keeping empty
segments — the behaviour of Python's `str.split(sep)` for a one-character
separator, as used on `'|'` and `','` in `convert_codebook`. -/
def splitOnChar (c : Char) : List Char → List (List Char)
  | [] => [[]]
  | x :: xs =>
    if x = c then [] :: splitOnChar c xs
    else
      match splitOnChar c xs with
      | [] => [[x]]
      | y :: ys => (x :: y) :: ys

/-- Python `s.split(sep)` on strings, via the character-list model. -/
def pySplit (c : Char) (s : String) : List String :=
  (splitOnChar c s.data).map (fun l => ⟨l⟩)

def isSpaceChar (c : Char) : Bool :=
  c = ' ' || c = '\t' || c = '\n' || c = '\r'

/-- Python `s.strip()`: drop leading and trailing whitespace. -/
def pyStrip (s : String) : String :=
  ⟨((s.data.dropWhile isSpaceChar).reverse.dropWhile isSpaceChar).reverse⟩

/-- Join segments back with a separator character (used to express the
spec's `remainder after the first comma`). -/
def joinChar (c : Char) : List (List Char) → List Char
  | [] => []
  | [x] => x
  | x :: y :: ys => x ++ c :: joinChar c (y :: ys)

def joinComma (l : List String) : String :=
  ⟨joinChar ',' (l.map String.data)⟩

/-- Fallible elementwise map: `none` as soon as one element fails — the
effect of the `try/except ... sys.exit(1)` loops of the source. -/
def mapO {α β : Type} (f : α → Option β) : List α → Option (List β)
  | [] => some []
  | a :: t =>
    match f a, mapO f t with
    | some b, some bs => some (b :: bs)
    | _, _ => none

theorem mapO_some_forall2 {α β : Type} (f : α → Option β) :
    ∀ (l : List α) (l' : List β), mapO f l = some l' →
      List.Forall₂ (fun a b => f a = some b) l l' := by
  intro l
  induction l with
  | nil =>
    intro l' h
    cases l' with
    | nil => exact List.Forall₂.nil
    | cons b bs => simp [mapO] at h
  | cons a t ih =>
    intro l' h
    cases hfa : f a with
    | none => rw [mapO, hfa] at h; exact absurd h (by simp)
    | some b =>
      cases hft : mapO f t with
      | none => rw [mapO, hfa, hft] at h; exact absurd h (by simp)
      | some bs =>
        rw [mapO, hfa, hft] at h
        simp only [Option.some_inj] at h
        rw [← h]
        exact List.Forall₂.cons hfa (ih bs hft)

/-- The label/code parse of `convert_codebook` (source lines 85-89): split
the specification on the pipe, split each pair on commas, and take
`kv_list[0].strip()` as the code and `kv_list[1].strip()` — the SECOND
comma token only — as the label. A pair with no comma raises and aborts
(`none`). -/
def parseChoices (s : String) : Option (List (String × String)) :=
  mapO (fun pair =>
    match pySplit ',' pair with
    | c :: l :: _ => some (pyStrip c, pyStrip l)
    | _ => none) (pySplit '|' s)

/-- Rendering of the spec's parsing rule, for comparison with
`parseChoices`: within a pair, the first comma-delimited token is the
code and the ENTIRE remainder after the first comma (trimmed) is the
label. -/
def specParseChoices (s : String) : Option (List (String × String)) :=
  mapO (fun pair =>
    match pySplit ',' pair with
    | c :: l :: rest => some (pyStrip c, pyStrip (joinComma (l :: rest)))
    | _ => none) (pySplit '|' s)

/-- `temp_dict[kv_list[1].strip()] = kv_list[0].strip()` over all pairs:
build the label -> code dict. -/
def buildDict (ps : List (String × String)) : Dict String String :=
  ps.foldl (fun d p => dinsert d p.2 p.1) []

/-- The inverse of a label -> code mapping: code -> label. -/
def dictInverse (m : Dict String String) : Dict String String :=
  m.map (fun p => (p.2, p.1))

theorem foldl_dinsert_nodup {α β : Type} [DecidableEq α] (l : List (α × β))
    (hnd : (l.map Prod.fst).Nodup) :
    ∀ acc : Dict α β, (∀ p ∈ l, ¬ (acc.any (fun q => q.1 = p.1) = true)) →
      l.foldl (fun d p => dinsert d p.1 p.2) acc = acc ++ l := by
  induction l with
  | nil => intro acc _; simp
  | cons p l ih =>
    intro acc hacc
    have hnd' : (p.1 :: l.map Prod.fst).Nodup := by
      rw [← List.map_cons]
      exact hnd
    rcases List.nodup_cons.mp hnd' with ⟨hpl, hndl⟩
    rw [List.foldl_cons]
    have hins : dinsert acc p.1 p.2 = acc ++ [p] := by
      unfold dinsert
      rw [if_neg (hacc p (List.mem_cons_self p l))]
    have hcond : ∀ q ∈ l, ¬ ((acc ++ [p]).any (fun r => r.1 = q.1) = true) := by
      intro q hq
      rw [List.any_append]
      simp only [Bool.or_eq_true, not_or]
      refine ⟨hacc q (List.mem_cons_of_mem p hq), ?_⟩
      simp only [List.any_cons, List.any_nil, Bool.or_false, decide_eq_true_eq]
      intro hc
      exact hpl (hc ▸ List.mem_map.mpr ⟨q, hq, rfl⟩)
    rw [hins, ih hndl _ hcond, List.append_assoc, List.singleton_append]

theorem dget_of_nodup_mem {α β : Type} [DecidableEq α] (d : Dict α β)
    (hnd : (d.map Prod.fst).Nodup) (p : α × β) (hp : p ∈ d) :
    dget d p.1 = some p.2 := by
  induction d with
  | nil => simp at hp
  | cons q t ih =>
    have hnd' : (q.1 :: t.map Prod.fst).Nodup := by
      rw [← List.map_cons]
      exact hnd
    rcases List.nodup_cons.mp hnd' with ⟨hqt, hndt⟩
    rcases List.mem_cons.mp hp with hpq | hpt
    · rw [hpq, dget_cons, if_pos rfl]
    · rw [dget_cons]
      have hne : ¬ (q.1 = p.1) := fun hc => hqt (hc ▸ List.mem_map.mpr ⟨p, hpt, rfl⟩)
      rw [if_neg hne]
      exact ih hndt hpt

theorem buildDict_eq_swap (ps : List (String × String))
    (hlab : (ps.map Prod.snd).Nodup) :
    buildDict ps = ps.map (fun p => (p.2, p.1)) := by
  unfold buildDict
  have hfold : ps.foldl (fun d p => dinsert d p.2 p.1) []
      = (ps.map (fun p => (p.2, p.1))).foldl (fun d p => dinsert d p.1 p.2) [] := by
    rw [List.foldl_map]
  rw [hfold, foldl_dinsert_nodup _ ?_ [] (by simp), List.nil_append]
  rw [List.map_map]
  have hcomp : (Prod.fst ∘ fun p : String × String => (p.2, p.1)) = Prod.snd := rfl
  rw [hcomp]
  exact hlab

/-- For specifications whose parsed labels are pairwise distinct, the
Codebook Translator's mapping sends each parsed label to its code. -/
theorem buildDict_lookup (ps : List (String × String)) (hlab : (ps.map Prod.snd).Nodup)
    (p : String × String) (hp : p ∈ ps) :
    dget (buildDict ps) p.2 = some p.1 := by
  rw [buildDict_eq_swap ps hlab]
  have hkeys : ((ps.map (fun q => (q.2, q.1))).map Prod.fst).Nodup := by
    rw [List.map_map]
    have hcomp : (Prod.fst ∘ fun q : String × String => (q.2, q.1)) = Prod.snd := rfl
    rw [hcomp]
    exact hlab
  exact dget_of_nodup_mem _ hkeys (p.2, p.1) (List.mem_map.mpr ⟨p, hp, rfl⟩)

/-- Claim C4 (amended): a well-formed specification parses as
pipe-delimited pairs where, within each pair, the first comma-delimited
token (trimmed) is the code and the SECOND comma-delimited token (trimmed)
— not the entire remainder after the first comma — is the label; the
resulting mapping sends each such label to its code. -/
theorem claim_C4 (s : String) (ps : List (String × String))
    (hp : parseChoices s = some ps) (hlab : (ps.map Prod.snd).Nodup) :
    List.Forall₂ (fun pair p => ∃ c l rest,
        pySplit ',' pair = c :: l :: rest ∧ p = (pyStrip c, pyStrip l))
      (pySplit '|' s) ps
    ∧ ∀ p ∈ ps, dget (buildDict ps) p.2 = some p.1 := by
  constructor
  · have h2 := mapO_some_forall2 _ _ _ hp
    refine List.Forall₂.imp ?_ h2
    intro pair p hfp
    cases hsplit : pySplit ',' pair with
    | nil => rw [hsplit] at hfp; exact absurd hfp (by simp)
    | cons c rest =>
      cases rest with
      | nil => rw [hsplit] at hfp; exact absurd hfp (by simp)
      | cons l rest2 =>
        rw [hsplit] at hfp
        simp only [Option.some_inj] at hfp
        exact ⟨c, l, rest2, rfl, hfp.symm⟩
  · intro p hpm
    exact buildDict_lookup ps hlab p hpm

/-- Claim C4, counterexample: on the well-formed pair `1, Hello, World`
the spec's rule yields the label `Hello, World`, but the code keeps only
the second comma token `Hello`; the mapping has no entry for the
remainder-after-first-comma label. -/
theorem claim_C4_counterexample :
    specParseChoices "1, Hello, World" = some [("1", "Hello, World")]
    ∧ parseChoices "1, Hello, World" = some [("1", "Hello")]
    ∧ dget (buildDict ((parseChoices "1, Hello, World").getD [])) "Hello, World" = none
    ∧ dget (buildDict ((parseChoices "1, Hello, World").getD [])) "Hello" = some "1" := by
  decide

theorem claim_C4_witness :
    (parseChoices "1, Yes | 0, No" = some [("1", "Yes"), ("0", "No")])
    ∧ (([("1", "Yes"), ("0", "No")].map Prod.snd).Nodup)
    ∧ (List.Forall₂ (fun pair p => ∃ c l rest,
          pySplit ',' pair = c :: l :: rest ∧ p = (pyStrip c, pyStrip l))
        (pySplit '|' "1, Yes | 0, No") [("1", "Yes"), ("0", "No")]
      ∧ ∀ p ∈ [("1", "Yes"), ("0", "No")],
          dget (buildDict [("1", "Yes"), ("0", "No")]) p.2 = some p.1) :=
  ⟨by decide, by decide,
    claim_C4 "1, Yes | 0, No" [("1", "Yes"), ("0", "No")] (by decide) (by decide)⟩

/-- Claim C9: for every entry of a well-formed specification (one that
parses, with pairwise-distinct labels and pairwise-distinct codes, so
that the mapping is invertible), encoding the label to its code via the
Codebook Translator's mapping and decoding back via the inverse mapping
recovers the original label. -/
theorem claim_C9 (s : String) (ps : List (String × String))
    (hp : parseChoices s = some ps) (hlab : (ps.map Prod.snd).Nodup)
    (hcode : (ps.map Prod.fst).Nodup) :
    ∀ p ∈ ps, dget (buildDict ps) p.2 = some p.1
      ∧ dget (dictInverse (buildDict ps)) p.1 = some p.2 := by
  intro p hpm
  refine ⟨buildDict_lookup ps hlab p hpm, ?_⟩
  have hinv : dictInverse (buildDict ps) = ps := by
    rw [buildDict_eq_swap ps hlab]
    unfold dictInverse
    rw [List.map_map]
    have hcomp : ((fun p : String × String => (p.2, p.1)) ∘ fun p : String × String => (p.2, p.1))
        = id := rfl
    rw [hcomp, List.map_id]
  rw [hinv]
  exact dget_of_nodup_mem ps hcode p hpm

theorem claim_C9_witness :
    (parseChoices "1, Yes | 0, No" = some [("1", "Yes"), ("0", "No")])
    ∧ (([("1", "Yes"), ("0", "No")].map Prod.snd).Nodup)
    ∧ (([("1", "Yes"), ("0", "No")].map Prod.fst).Nodup)
    ∧ (∀ p ∈ [("1", "Yes"), ("0", "No")],
        dget (buildDict [("1", "Yes"), ("0", "No")]) p.2 = some p.1
        ∧ dget (dictInverse (buildDict [("1", "Yes"), ("0", "No")])) p.1 = some p.2) :=
  ⟨by decide, by decide, by decide,
    claim_C9 "1, Yes | 0, No" [("1", "Yes"), ("0", "No")] (by decide) (by decide) (by decide)⟩

/-- `tuple(report_value[key] for key in less_criteria)`: the stratum key
of a pending subject, in criteria order (evaluated under the guard that
every criteria key is present). -/
def subjectKey (crit : List String) (rec : Dict String Int) : List Int :=
  crit.map (fun kf => (dget rec kf).getD 0)

/-- The guard of `randomization_step`: all criteria keys present in the
record and the stratum key present in the probability dict. -/
def recMatched (crit : List String) (pdict : Dict (List Int) (Dict Int ℚ))
    (rec : Dict String Int) : Bool :=
  crit.all (fun kf => (dget rec kf).isSome) && (dget pdict (subjectKey crit rec)).isSome

/-- `random.choices(keys, weights, k=1)`: walk the cumulative weights and
return the first key whose running total exceeds the scaled draw,
clamping to the last key. -/
def pickGo : List (Int × ℚ) → ℚ → Int
  | [], _ => 0
  | [(kf, _)], _ => kf
  | (kf, w) :: q :: rest, target => if target < w then kf else pickGo (q :: rest) (target - w)

def pickWeighted (vd : Dict Int ℚ) (u : ℚ) : Int :=
  pickGo vd (u * ((vd.map (fun p => p.2)).sum))

/-- `randomization_step` (source lines 185-196), one record at a time: a
matched record gets `record[randomized_field] = random_choice` (a dict
assignment) and consumes one draw from the random stream; an unmatched
record is returned untouched. `n` is the index of the next unconsumed
draw. -/
def randStepAux (rField : String) (crit : List String)
    (pdict : Dict (List Int) (Dict Int ℚ)) (u : ℕ → ℚ) :
    ℕ → List (Dict String Int) → List (Dict String Int)
  | _, [] => []
  | n, rec :: rest =>
    if recMatched crit pdict rec then
      dinsert rec rField (pickWeighted ((dget pdict (subjectKey crit rec)).getD []) (u n))
        :: randStepAux rField crit pdict u (n + 1) rest
    else rec :: randStepAux rField crit pdict u n rest

def randomization_step (rField : String) (crit : List String)
    (pdict : Dict (List Int) (Dict Int ℚ)) (report : List (Dict String Int))
    (u : ℕ → ℚ) : List (Dict String Int) :=
  randStepAux rField crit pdict u 0 report

theorem randStepAux_length (rField : String) (crit : List String)
    (pdict : Dict (List Int) (Dict Int ℚ)) (u : ℕ → ℚ) :
    ∀ (l : List (Dict String Int)) (n : ℕ),
      (randStepAux rField crit pdict u n l).length = l.length := by
  intro l
  induction l with
  | nil => intro n; rfl
  | cons rec rest ih =>
    intro n
    rw [randStepAux]
    by_cases hm : recMatched crit pdict rec
    · rw [if_pos hm, List.length_cons, ih, List.length_cons]
    · rw [if_neg hm, List.length_cons, ih, List.length_cons]

theorem randStepAux_getD (rField : String) (crit : List String)
    (pdict : Dict (List Int) (Dict Int ℚ)) (u : ℕ → ℚ) :
    ∀ (l : List (Dict String Int)) (n i : ℕ), i < l.length →
      (randStepAux rField crit pdict u n l).getD i []
        = if recMatched crit pdict (l.getD i []) then
            dinsert (l.getD i []) rField
              (pickWeighted ((dget pdict (subjectKey crit (l.getD i []))).getD [])
                (u (n + (l.take i).countP (recMatched crit pdict))))
          else l.getD i [] := by
  intro l
  induction l with
  | nil => intro n i hi; simp at hi
  | cons rec rest ih =>
    intro n i hi
    rw [randStepAux]
    cases i with
    | zero =>
      by_cases hm : recMatched crit pdict rec <;> simp [hm]
    | succ j =>
      have hj : j < rest.length := by simpa using hi
      have htake : ((rec :: rest).take (j + 1)).countP (recMatched crit pdict)
          = (rest.take j).countP (recMatched crit pdict)
            + (if recMatched crit pdict rec then 1 else 0) := by
        rw [List.take_succ_cons, List.countP_cons]
      by_cases hm : recMatched crit pdict rec
      · rw [if_pos hm]
        simp only [List.getD_cons_succ]
        rw [ih (n + 1) j hj]
        have harg : n + 1 + (rest.take j).countP (recMatched crit pdict)
            = n + ((rec :: rest).take (j + 1)).countP (recMatched crit pdict) := by
          rw [htake, if_pos hm]
          omega
        rw [harg]
      · rw [if_neg hm]
        simp only [List.getD_cons_succ]
        rw [ih n j hj]
        have harg : n + (rest.take j).countP (recMatched crit pdict)
            = n + ((rec :: rest).take (j + 1)).countP (recMatched crit pdict) := by
          rw [htake, if_neg hm]
          omega
        rw [harg]

/-- Claim C3: the randomization step returns the same subject list
(length and order preserved); for each record, every field other than the
`randomized_field` is unchanged, and an unmatched record is returned
entirely untouched. -/
theorem claim_C3 (rField : String) (crit : List String)
    (pdict : Dict (List Int) (Dict Int ℚ)) (report : List (Dict String Int))
    (u : ℕ → ℚ) (i : ℕ) (hi : i < report.length) :
    (randomization_step rField crit pdict report u).length = report.length
    ∧ (∀ kf, kf ≠ rField →
        dget ((randomization_step rField crit pdict report u).getD i []) kf
          = dget (report.getD i []) kf)
    ∧ (¬ (recMatched crit pdict (report.getD i []) = true) →
        (randomization_step rField crit pdict report u).getD i [] = report.getD i []) := by
  refine ⟨randStepAux_length rField crit pdict u report 0, ?_, ?_⟩
  · intro kf hkf
    rw [randomization_step, randStepAux_getD rField crit pdict u report 0 i hi]
    by_cases hm : recMatched crit pdict (report.getD i [])
    · rw [if_pos hm, dget_dinsert_ne _ _ _ _ hkf]
    · rw [if_neg hm]
  · intro hm
    rw [randomization_step, randStepAux_getD rField crit pdict u report 0 i hi, if_neg hm]

theorem claim_C3_witness :
    (0 < ([[("id", 7), ("sex", 2), ("rand", -1)]] : List (Dict String Int)).length)
    ∧ ((randomization_step "rand" ["sex"] [([2], [(5, 1)])]
          [[("id", 7), ("sex", 2), ("rand", -1)]] (fun _ => 0)).length
        = ([[("id", 7), ("sex", 2), ("rand", -1)]] : List (Dict String Int)).length
      ∧ (∀ kf, kf ≠ "rand" →
          dget ((randomization_step "rand" ["sex"] [([2], [(5, 1)])]
              [[("id", 7), ("sex", 2), ("rand", -1)]] (fun _ => 0)).getD 0 []) kf
            = dget (([[("id", 7), ("sex", 2), ("rand", -1)]] :
                List (Dict String Int)).getD 0 []) kf)
      ∧ (¬ (recMatched ["sex"] [([2], [(5, 1)])]
            (([[("id", 7), ("sex", 2), ("rand", -1)]] :
              List (Dict String Int)).getD 0 []) = true) →
          (randomization_step "rand" ["sex"] [([2], [(5, 1)])]
              [[("id", 7), ("sex", 2), ("rand", -1)]] (fun _ => 0)).getD 0 []
            = ([[("id", 7), ("sex", 2), ("rand", -1)]] :
                List (Dict String Int)).getD 0 [])) :=
  ⟨by decide, claim_C3 "rand" ["sex"] [([2], [(5, 1)])]
    [[("id", 7), ("sex", 2), ("rand", -1)]] (fun _ => 0) 0 (by decide)⟩

/-- Claim C8: the randomization step is a pure function of its inputs —
with the pseudo-random source modelled as an explicit stream of draws,
two runs over identical subject lists, criteria, probability index and an
identical random stream produce identical assignments for every subject. -/
theorem claim_C8 (rField : String) (crit : List String)
    (pdict : Dict (List Int) (Dict Int ℚ)) (report : List (Dict String Int))
    (u1 u2 : ℕ → ℚ) (h : ∀ n, u1 n = u2 n) :
    randomization_step rField crit pdict report u1
      = randomization_step rField crit pdict report u2 := by
  have hu : u1 = u2 := funext h
  rw [hu]

theorem claim_C8_witness :
    (∀ n : ℕ, (fun _ : ℕ => (0 : ℚ)) n = (fun _ : ℕ => (0 : ℚ)) n)
    ∧ randomization_step "rand" ["sex"] [([2], [(5, 1)])]
        [[("id", 7), ("sex", 2), ("rand", -1)]] (fun _ => 0)
      = randomization_step "rand" ["sex"] [([2], [(5, 1)])]
        [[("id", 7), ("sex", 2), ("rand", -1)]] (fun _ => 0) :=
  ⟨fun _ => rfl, claim_C8 "rand" ["sex"] [([2], [(5, 1)])]
    [[("id", 7), ("sex", 2), ("rand", -1)]] (fun _ => 0) (fun _ => 0) (fun _ => rfl)⟩

/-- `main` lines 278-281: before pushing the records back, every `-1`
sentinel value is turned into a null. -/
def finalizeRec (rec : Dict String Int) : Dict String (Option Int) :=
  rec.map (fun p => (p.1, if p.2 = -1 then none else some p.2))

def finalizeReport (l : List (Dict String Int)) : List (Dict String (Option Int)) :=
  l.map finalizeRec

theorem finalizeRec_dget (rec : Dict String Int) (kf : String) :
    dget (finalizeRec rec) kf
      = (dget rec kf).map (fun v => if v = -1 then none else some v) := by
  unfold finalizeRec
  induction rec with
  | nil => rfl
  | cons q t ih =>
    by_cases hq : q.1 = kf
    · simp [dget_cons, hq]
    · simp [dget_cons, hq, ih]

/-- The identifier of a record: the value of its first field (`main` line
231 takes everything after the first report field as criteria, so the
first field is the identifier). -/
def recId (rec : Dict String (Option Int)) : Option Int :=
  rec.head?.bind (fun p => p.2)

/-- The unassigned identifiers recoverable from the caller-visible output:
the identifiers of the pushed records whose randomized field is null.
The program surfaces unassigned subjects this way — their full records
stay in the output with a null treatment — rather than building a
separate list. -/
def unassignedIds (rField : String) (outs : List (Dict String (Option Int))) :
    List (Option Int) :=
  (outs.filter (fun rec => dget rec rField = some none)).map recId

theorem getD_mem_of_lt {α : Type} (l : List α) (d : α) (i : ℕ) (h : i < l.length) :
    l.getD i d ∈ l := by
  rw [List.getD_eq_getElem l d h]
  exact List.getElem_mem h

/-- Claim C5: a pending subject whose complete stratum key is absent from
the Probability Index is left entirely untouched by the randomization
step; its pushed record carries a null treatment, and its identifier is
recoverable from the caller-visible output among the unassigned records. -/
theorem claim_C5 (rField : String) (crit : List String)
    (pdict : Dict (List Int) (Dict Int ℚ)) (report : List (Dict String Int))
    (u : ℕ → ℚ) (i : ℕ) (hi : i < report.length)
    (hkeys : crit.all (fun kf => (dget (report.getD i []) kf).isSome) = true)
    (hnokey : dget pdict (subjectKey crit (report.getD i [])) = none)
    (hpending : dget (report.getD i []) rField = some (-1)) :
    (randomization_step rField crit pdict report u).getD i [] = report.getD i []
    ∧ dget (finalizeRec ((randomization_step rField crit pdict report u).getD i []))
        rField = some none
    ∧ recId (finalizeRec ((randomization_step rField crit pdict report u).getD i []))
        ∈ unassignedIds rField
            (finalizeReport (randomization_step rField crit pdict report u)) := by
  have hm : ¬ (recMatched crit pdict (report.getD i []) = true) := by
    intro hc
    unfold recMatched at hc
    rw [hnokey] at hc
    simp at hc
  have hout : (randomization_step rField crit pdict report u).getD i []
      = report.getD i [] := by
    rw [randomization_step, randStepAux_getD rField crit pdict u report 0 i hi, if_neg hm]
  have hnull : dget (finalizeRec ((randomization_step rField crit pdict report u).getD i []))
      rField = some none := by
    rw [hout, finalizeRec_dget, hpending]
    simp
  refine ⟨hout, hnull, ?_⟩
  have hlen : i < (randomization_step rField crit pdict report u).length := by
    rw [randomization_step, randStepAux_length]
    exact hi
  have hmem : (randomization_step rField crit pdict report u).getD i []
      ∈ randomization_step rField crit pdict report u :=
    getD_mem_of_lt _ _ i hlen
  unfold unassignedIds finalizeReport
  apply List.mem_map.mpr
  refine ⟨finalizeRec ((randomization_step rField crit pdict report u).getD i []), ?_, rfl⟩
  apply List.mem_filter.mpr
  exact ⟨List.mem_map.mpr ⟨_, hmem, rfl⟩, by simpa using hnull⟩

theorem claim_C5_witness :
    (0 < ([[("id", 7), ("sex", 3), ("rand", -1)]] : List (Dict String Int)).length)
    ∧ ((["sex"] : List String).all
        (fun kf => (dget (([[("id", 7), ("sex", 3), ("rand", -1)]] :
          List (Dict String Int)).getD 0 []) kf).isSome) = true)
    ∧ (dget ([([2], [(5, 1)])] : Dict (List Int) (Dict Int ℚ))
        (subjectKey ["sex"] (([[("id", 7), ("sex", 3), ("rand", -1)]] :
          List (Dict String Int)).getD 0 [])) = none)
    ∧ (dget (([[("id", 7), ("sex", 3), ("rand", -1)]] :
        List (Dict String Int)).getD 0 []) "rand" = some (-1))
    ∧ ((randomization_step "rand" ["sex"] [([2], [(5, 1)])]
          [[("id", 7), ("sex", 3), ("rand", -1)]] (fun _ => 0)).getD 0 []
        = ([[("id", 7), ("sex", 3), ("rand", -1)]] : List (Dict String Int)).getD 0 []
      ∧ dget (finalizeRec ((randomization_step "rand" ["sex"] [([2], [(5, 1)])]
          [[("id", 7), ("sex", 3), ("rand", -1)]] (fun _ => 0)).getD 0 [])) "rand"
          = some none
      ∧ recId (finalizeRec ((randomization_step "rand" ["sex"] [([2], [(5, 1)])]
          [[("id", 7), ("sex", 3), ("rand", -1)]] (fun _ => 0)).getD 0 []))
          ∈ unassignedIds "rand" (finalizeReport (randomization_step "rand" ["sex"]
              [([2], [(5, 1)])] [[("id", 7), ("sex", 3), ("rand", -1)]] (fun _ => 0)))) :=
  ⟨by decide, by decide, by decide, by decide,
    claim_C5 "rand" ["sex"] [([2], [(5, 1)])] [[("id", 7), ("sex", 3), ("rand", -1)]]
      (fun _ => 0) 0 (by decide) (by decide) (by decide) (by decide)⟩

/-- `main` line 243: `allocation_df.replace({pd.NA: '', np.nan: ''})` — a
missing cell becomes the empty string before grouping. -/
def normCell (c : Option String) : String := c.getD ""

def normRow (r : List (Option String)) : List String := r.map normCell

theorem groupSizes_total {β : Type} [DecidableEq β] (l : List β) :
    ((groupSizes l).map (fun p => p.2)).sum = l.length := by
  unfold groupSizes
  rw [List.map_map]
  have hcomp : ((fun p : β × Nat => p.2) ∘ fun r => (r, rowCount l r))
      = fun r => rowCount l r := rfl
  rw [hcomp]
  have h := sum_count_dedup_filter l (fun _ => true)
  rw [List.filter_true] at h
  rw [h, List.countP_true]

/-- Claim C6: after the missing-value normalization, grouping the table
by all columns drops no row — the group sizes add up to the number of
table rows and every row's normalized form appears as a group carrying
the row's full multiplicity — and a row with a missing value in some
column never shares a group with a row holding a nonempty code in that
column. -/
theorem claim_C6 (rows : List (List (Option String))) (r1 r2 : List (Option String))
    (h1 : r1 ∈ rows) (h2 : r2 ∈ rows) (j : ℕ) (v : String)
    (hm : r1[j]? = some none) (hv : r2[j]? = some (some v)) (hne : v ≠ "") :
    ((groupSizes (rows.map normRow)).map (fun p => p.2)).sum = rows.length
    ∧ (normRow r1, rowCount (rows.map normRow) (normRow r1)) ∈ groupSizes (rows.map normRow)
    ∧ (normRow r2, rowCount (rows.map normRow) (normRow r2)) ∈ groupSizes (rows.map normRow)
    ∧ normRow r1 ≠ normRow r2 := by
  refine ⟨?_, ?_, ?_, ?_⟩
  · rw [groupSizes_total, List.length_map]
  · exact List.mem_map.mpr
      ⟨normRow r1, List.mem_dedup.mpr (List.mem_map.mpr ⟨r1, h1, rfl⟩), rfl⟩
  · exact List.mem_map.mpr
      ⟨normRow r2, List.mem_dedup.mpr (List.mem_map.mpr ⟨r2, h2, rfl⟩), rfl⟩
  · intro hc
    have hg1 : (normRow r1)[j]? = some "" := by
      unfold normRow
      rw [List.getElem?_map, hm]
      rfl
    have hg2 : (normRow r2)[j]? = some v := by
      unfold normRow
      rw [List.getElem?_map, hv]
      rfl
    rw [hc, hg2] at hg1
    exact hne (Option.some_inj.mp hg1).symm.symm

theorem claim_C6_witness :
    (([none, some "x"] : List (Option String)) ∈
        ([[none, some "x"], [some "1", some "x"]] : List (List (Option String))))
    ∧ (([some "1", some "x"] : List (Option String)) ∈
        ([[none, some "x"], [some "1", some "x"]] : List (List (Option String))))
    ∧ (([none, some "x"] : List (Option String))[0]? = some none)
    ∧ (([some "1", some "x"] : List (Option String))[0]? = some (some "1"))
    ∧ ("1" ≠ "")
    ∧ (((groupSizes (([[none, some "x"], [some "1", some "x"]] :
          List (List (Option String))).map normRow)).map (fun p => p.2)).sum
        = ([[none, some "x"], [some "1", some "x"]] : List (List (Option String))).length
      ∧ (normRow [none, some "x"],
          rowCount (([[none, some "x"], [some "1", some "x"]] :
            List (List (Option String))).map normRow) (normRow [none, some "x"]))
          ∈ groupSizes (([[none, some "x"], [some "1", some "x"]] :
            List (List (Option String))).map normRow)
      ∧ (normRow [some "1", some "x"],
          rowCount (([[none, some "x"], [some "1", some "x"]] :
            List (List (Option String))).map normRow) (normRow [some "1", some "x"]))
          ∈ groupSizes (([[none, some "x"], [some "1", some "x"]] :
            List (List (Option String))).map normRow)
      ∧ normRow [none, some "x"] ≠ normRow [some "1", some "x"]) :=
  ⟨by decide, by decide, by decide, by decide, by decide,
    claim_C6 [[none, some "x"], [some "1", some "x"]] [none, some "x"] [some "1", some "x"]
      (by decide) (by decide) 0 "1" (by decide) (by decide) (by decide)⟩

def natOfDigitsAux : List Char → Nat → Option Nat
  | [], acc => some acc
  | c :: cs, acc =>
    if c.isDigit then natOfDigitsAux cs (acc * 10 + (c.toNat - 48)) else none

def natOfDigits (l : List Char) : Option Nat :=
  if l = [] then none else natOfDigitsAux l 0

/-- Python `int(s)` on a stripped code string: an optional sign followed
by at least one digit; anything else raises (models the `astype(int)`
crash of `main` line 266 on a non-numeric code). -/
def pyToInt (s : String) : Option Int :=
  match s.data with
  | '-' :: rest => (natOfDigits rest).map (fun n => -(n : Int))
  | l => (natOfDigits l).map (fun n => (n : Int))

/-- One cell of `convert_to_values` + `main` line 266: look the label up
in the field's translation dict (`.get(x, None)`); a missing label gives
`None`, which line 159 turns into `''` and line 266 into the sentinel
`-1`; a mapped code is coerced to an integer (`''` codes also become the
sentinel, any other unparsable code crashes the run). -/
def convertCell (fd : Dict String String) (label : String) : Option Int :=
  match dget fd label with
  | none => some (-1)
  | some code => if code = "" then some (-1) else pyToInt code

/-- `convert_to_values` (source lines 148-160) composed with the integer
coercion of `main` line 266, one row of `mapped_df` at a time: every
criteria column (paired with its field name) and the `randomized_field`
column are rewritten from labels to integer codes; a field name missing
from the translation dict aborts the run (`none`). -/
def convRow (critNames : List String) (rField : String)
    (tdict : Dict String (Dict String String)) (r : PRow String) : Option (PRow Int) :=
  (mapO (fun nv => (dget tdict nv.1).bind (fun fd => convertCell fd nv.2))
      (critNames.zip r.crit)).bind
    (fun crit' => (dget tdict rField).bind
      (fun fd => (convertCell fd r.rand).map (fun rand' => ⟨crit', rand', r.prob⟩)))

def convert_to_values (critNames : List String) (rField : String)
    (tdict : Dict String (Dict String String)) (rows : List (PRow String)) :
    Option (List (PRow Int)) :=
  mapO (convRow critNames rField tdict) rows

/-- What encoding reconciliation guarantees for a single cell: the field
has a translation dict; an unmapped label became the sentinel; and every
cell is either the sentinel or a parsed integer code of the mapping. -/
def cellOk (tdict : Dict String (Dict String String)) (n : String) (v : String)
    (v' : Int) : Prop :=
  ∃ fd, dget tdict n = some fd
    ∧ (dget fd v = none → v' = -1)
    ∧ (v' = -1 ∨ ∃ code, dget fd v = some code ∧ pyToInt code = some v')

theorem dget_mem {α β : Type} [DecidableEq α] (d : Dict α β) (k : α) (v : β)
    (h : dget d k = some v) : (k, v) ∈ d := by
  unfold dget at h
  cases hf : d.find? (fun p => p.1 = k) with
  | none => rw [hf] at h; exact absurd h (by simp)
  | some p =>
    rw [hf] at h
    have hmem := List.mem_of_find?_eq_some hf
    have hkey : p.1 = k := by simpa using List.find?_some hf
    have hval : p.2 = v := by simpa using h
    have : p = (k, v) := by
      cases p with
      | mk a b =>
        simp only at hkey hval
        rw [hkey, hval]
    exact this ▸ hmem

theorem convertCell_ok (tdict : Dict String (Dict String String)) (n : String)
    (fd : Dict String String) (hfd : dget tdict n = some fd)
    (hcodes : ∀ p ∈ fd, p.2 ≠ "" → (pyToInt p.2).isSome) (v : String) :
    ∃ v', convertCell fd v = some v' ∧ cellOk tdict n v v' := by
  unfold convertCell
  cases hl : dget fd v with
  | none => exact ⟨-1, rfl, fd, hfd, fun _ => rfl, Or.inl rfl⟩
  | some code =>
    show ∃ v', (if code = "" then some (-1) else pyToInt code) = some v' ∧ cellOk tdict n v v'
    by_cases hc : code = ""
    · rw [if_pos hc]
      exact ⟨-1, rfl, fd, hfd, by simp [hl], Or.inl rfl⟩
    · rw [if_neg hc]
      have hsome : (pyToInt code).isSome := hcodes (v, code) (dget_mem fd v code hl) hc
      rcases Option.isSome_iff_exists.mp hsome with ⟨z, hz⟩
      exact ⟨z, hz, fd, hfd, by simp [hl], Or.inr ⟨code, hl, hz⟩⟩

theorem mapO_some_of_forall {α β : Type} (f : α → Option β) (R : α → β → Prop)
    (hf : ∀ a b, f a = some b → R a b) :
    ∀ l : List α, (∀ a ∈ l, (f a).isSome) →
      ∃ l', mapO f l = some l' ∧ List.Forall₂ R l l' := by
  intro l
  induction l with
  | nil => intro _; exact ⟨[], rfl, List.Forall₂.nil⟩
  | cons a t ih =>
    intro hall
    rcases Option.isSome_iff_exists.mp (hall a (List.mem_cons_self a t)) with ⟨b, hb⟩
    rcases ih (fun x hx => hall x (List.mem_cons_of_mem a hx)) with ⟨l', hl', hR⟩
    refine ⟨b :: l', ?_, List.Forall₂.cons (hf a b hb) hR⟩
    rw [mapO, hb, hl']

theorem convRow_ok (critNames : List String) (rField : String)
    (tdict : Dict String (Dict String String))
    (hfields : ∀ n ∈ rField :: critNames, (dget tdict n).isSome)
    (hcodes : ∀ q ∈ tdict, ∀ p ∈ q.2, p.2 ≠ "" → (pyToInt p.2).isSome)
    (r : PRow String) :
    ∃ r', convRow critNames rField tdict r = some r'
      ∧ List.Forall₂ (fun nv v' => cellOk tdict nv.1 nv.2 v') (critNames.zip r.crit) r'.crit
      ∧ cellOk tdict rField r.rand r'.rand ∧ r'.prob = r.prob := by
  have hcodes' : ∀ (n : String) (fd : Dict String String), dget tdict n = some fd →
      ∀ p ∈ fd, p.2 ≠ "" → (pyToInt p.2).isSome := by
    intro n fd hfd p hp hne
    exact hcodes (n, fd) (dget_mem tdict n fd hfd) p hp hne
  have hcell : ∀ nv ∈ critNames.zip r.crit,
      (((dget tdict nv.1).bind (fun fd => convertCell fd nv.2)) : Option Int).isSome := by
    intro nv hnv
    have hn1 : nv.1 ∈ critNames := (List.of_mem_zip hnv).1
    rcases Option.isSome_iff_exists.mp
      (hfields nv.1 (List.mem_cons_of_mem rField hn1)) with ⟨fd, hfd⟩
    rcases convertCell_ok tdict nv.1 fd hfd (hcodes' nv.1 fd hfd) nv.2 with ⟨v', hv', _⟩
    rw [hfd, Option.some_bind, hv']
    rfl
  have hf : ∀ (nv : String × String) (v' : Int),
      ((dget tdict nv.1).bind (fun fd => convertCell fd nv.2)) = some v' →
      cellOk tdict nv.1 nv.2 v' := by
    intro nv v' heq
    cases hfd : dget tdict nv.1 with
    | none => rw [hfd] at heq; exact absurd heq (by simp)
    | some fd =>
      rw [hfd, Option.some_bind] at heq
      rcases convertCell_ok tdict nv.1 fd hfd (hcodes' nv.1 fd hfd) nv.2 with ⟨v0, hv0, hok⟩
      rw [hv0] at heq
      exact (Option.some_inj.mp heq) ▸ hok
  rcases mapO_some_of_forall _ _ hf (critNames.zip r.crit) hcell with ⟨crit', hcrit, hR⟩
  rcases Option.isSome_iff_exists.mp (hfields rField (List.mem_cons_self rField critNames))
    with ⟨fdr, hfdr⟩
  rcases convertCell_ok tdict rField fdr hfdr (hcodes' rField fdr hfdr) r.rand
    with ⟨rand', hrand', hokr⟩
  refine ⟨⟨crit', rand', r.prob⟩, ?_, hR, hokr, rfl⟩
  unfold convRow
  rw [hcrit, Option.some_bind, hfdr, Option.some_bind, hrand']
  rfl

/-- Claim C7: if the translation dict covers every criteria field and the
`randomized_field`, and every nonempty code in it parses as an integer,
then encoding reconciliation succeeds (no error, no abort) no matter what
labels the probability table holds; cell by cell, a label with no entry in
its field's mapping is replaced by the unknown sentinel `-1`, and every
converted criteria or randomized cell is either the sentinel or an integer
code from the mapping. -/
theorem claim_C7 (critNames : List String) (rField : String)
    (tdict : Dict String (Dict String String)) (rows : List (PRow String))
    (hfields : ∀ n ∈ rField :: critNames, (dget tdict n).isSome)
    (hcodes : ∀ q ∈ tdict, ∀ p ∈ q.2, p.2 ≠ "" → (pyToInt p.2).isSome) :
    ∃ rows', convert_to_values critNames rField tdict rows = some rows'
      ∧ List.Forall₂ (fun r r' =>
          List.Forall₂ (fun nv v' => cellOk tdict nv.1 nv.2 v') (critNames.zip r.crit) r'.crit
          ∧ cellOk tdict rField r.rand r'.rand ∧ r'.prob = r.prob) rows rows' := by
  apply mapO_some_of_forall
  · intro r r' heq
    rcases convRow_ok critNames rField tdict hfields hcodes r with ⟨r0, hr0, hrel⟩
    rw [hr0] at heq
    exact (Option.some_inj.mp heq) ▸ hrel
  · intro r _
    rcases convRow_ok critNames rField tdict hfields hcodes r with ⟨r0, hr0, _⟩
    rw [hr0]
    rfl

/-- A concrete reconciliation run: the criteria label `Unknown` and the
treatment label `Y` are absent from their field mappings and become the
sentinel, without aborting. -/
def c7dict : Dict String (Dict String String) :=
  [("sex", [("Male", "1")]), ("rand", [("X", "2")])]

def c7rows : List (PRow String) := [⟨["Unknown"], "Y", 1⟩]

theorem claim_C7_witness :
    (∀ n ∈ ["rand", "sex"], (dget c7dict n).isSome)
    ∧ (∀ q ∈ c7dict, ∀ p ∈ q.2, p.2 ≠ "" → (pyToInt p.2).isSome)
    ∧ (∃ rows', convert_to_values ["sex"] "rand" c7dict c7rows = some rows'
        ∧ List.Forall₂ (fun (r : PRow String) (r' : PRow Int) =>
            List.Forall₂ (fun nv v' => cellOk c7dict nv.1 nv.2 v')
              ((["sex"] : List String).zip r.crit) r'.crit
            ∧ cellOk c7dict "rand" r.rand r'.rand ∧ r'.prob = r.prob)
          c7rows rows') :=
  ⟨by decide, by decide,
    claim_C7 ["sex"] "rand" c7dict c7rows (by decide) (by decide)⟩

/-- A table whose two treatment labels `X` and `Y` are both absent from
the `randomized_field` mapping: after conversion both rows carry the
sentinel `-1`, so they collide inside `create_probability_dict`. -/
def c10table : List AllocRow :=
  List.replicate 15 (["SiteA"], "X") ++ List.replicate 5 (["SiteA"], "Y")

def c10dict : Dict String (Dict String String) :=
  [("site", [("SiteA", "1")]), ("rand", [("Z", "9")])]

/-- Claim C10: `create_probability_dict` keeps only the LAST probability
for a repeated (stratum key, treatment code) pair — lookups return the
probability of the last matching `mapped_df` row. On `c10table`, the two
distinct unmapped labels collapse to the sentinel after conversion, the
0.75 of the earlier row is overwritten by the 0.25 of the later one, and
the stratum's distribution sums to 0.25 < 1. -/
theorem claim_C10 :
    (∀ (l : List (PRow Int)) (k : Key Int) (t : Int),
        dget2 (create_probability_dict l) k t
          = (l.reverse.find? (rowMatch k t)).map PRow.prob)
    ∧ convert_to_values ["site"] "rand" c10dict
        (calculate_probabilities (groupSizes c10table))
      = some [⟨[1], -1, 3/4⟩, ⟨[1], -1, 1/4⟩]
    ∧ create_probability_dict ([⟨[1], -1, 3/4⟩, ⟨[1], -1, 1/4⟩] : List (PRow Int))
      = [([1], [(-1, 1/4)])]
    ∧ (([((-1 : Int), (1 : ℚ)/4)].map (fun p => p.2)).sum < 1) :=
  ⟨fun l k t => cpd_find l k t, by decide, by decide, by decide⟩
